import Mathlib

/-!
Verification of the progressive tree-discovery and dual-pane presentation
controller of a terminal document viewer, against its natural-language
specification.

The Go sources are shallowly embedded as follows.

* Go strings are modelled as `List Char` (`Str`).  Go indexes strings by
  UTF-8 bytes; the one place the source slices by byte position
  (`prefix[0:len(prefix)-4]` in `FlattenTree`) is modelled by `takeBytes`,
  which counts UTF-8 bytes per character via `Char.utf8Size`.
* Filesystem paths are modelled as lists of path segments (`List Str`);
  `filepath.Join`/`filepath.Rel`/`strings.Split(rel, sep)` then become list
  append and list difference.
* The filesystem itself is the inductive `FS`; a directory whose entries
  cannot be read (including a nonexistent scan root) is modelled by passing
  `none` for the root's entry list.  `filepath.WalkDir` visits a directory's
  entries in lexical order; the `FS` value is taken as the abstract disk
  content with entry lists already in that order, so the walk processes them
  in list order.
* The gitignore matcher is an external collaborator; a loaded matcher is an
  abstract predicate, and `none` models both `includeIgnored = true` and a
  missing/unloadable ignore file.
* `glamour` renderers are abstract functions `Str → Option Str` (`none`
  models a render error); renderer construction is the abstract
  `Env.newRenderer` (`none` models a construction error).  The process-wide
  renderer cache is carried in the model state.
* Go `float64` arithmetic on the split ratio (only `+`, `-`, comparisons and
  the constants 0.05/0.2/0.3/0.5 occur) is modelled over `ℚ`; `int(x)`
  conversion is `goInt` (truncation toward zero).
* Go `int` is modelled as `Int`; `/` on Go ints truncates toward zero and is
  modelled by `Int.tdiv`.
* `strings.ToLower` is modelled per character by `Char.toLower` (ASCII
  folding).
-/

set_option linter.unusedVariables false

abbrev Str := List Char

/-- Model of `strings.HasPrefix(name, ".")`. -/
def startsDot : Str → Bool
  | [] => false
  | c :: _ => c == '.'

/-- Model of `strings.ToLower` (per-character ASCII case folding). -/
def lowerStr (s : Str) : Str := s.map Char.toLower

/-- Model of Go's `<` on strings: lexicographic order (byte order and code
point order agree on valid UTF-8). -/
def strLt : Str → Str → Bool
  | _, [] => false
  | [], _ :: _ => true
  | a :: as, b :: bs => decide (a < b) || (a == b && strLt as bs)

/-- Model of `strings.HasSuffix(strings.ToLower(name), ".md")`. -/
def hasSuffixMd (s : Str) : Bool := List.isSuffixOf ".md".data (lowerStr s)

/-- Model of `strings.Split(s, "\n")`. -/
def splitNl : Str → List Str
  | [] => [[]]
  | c :: t =>
      if c = '\n' then [] :: splitNl t
      else
        match splitNl t with
        | [] => [[c]]
        | h :: r => (c :: h) :: r

/-- Model of `strings.Contains(s, sub)`. -/
def containsSub : Str → Str → Bool
  | [], sub => sub.isEmpty
  | c :: t, sub => List.isPrefixOf sub (c :: t) || containsSub t sub

/-- UTF-8 byte length of a string modelled as a char list (Go `len(s)`). -/
def utf8Len (s : Str) : Nat := (s.map Char.utf8Size).sum

/-- First `n` UTF-8 bytes of a string (Go `s[0:n]`).  In every reachable use
the cut falls on a character boundary (the theorem for the safety claim shows
every sliced string ends in four one-byte spaces). -/
def takeBytes : Nat → Str → Str
  | _, [] => []
  | n, c :: t => if c.utf8Size ≤ n then c :: takeBytes (n - c.utf8Size) t else []

/-- Model of the slice `prefix[0:len(prefix)-4]` used by `FlattenTree`. -/
def cut4 (s : Str) : Str := takeBytes (utf8Len s - 4) s

/-- Abstract filesystem: named files and directories with readable entries. -/
inductive FS where
  | file (name : Str)
  | dir (name : Str) (entries : List FS)
deriving Inhabited, Repr

def FS.name : FS → Str
  | .file n => n
  | .dir n _ => n

def FS.isDir : FS → Bool
  | .file _ => false
  | .dir _ _ => true

/-- The `FileNode` struct of the source: display name, absolute path (as
segments), directory flag, ordered children. -/
inductive FileNode where
  | mk (Name : Str) (Path : List Str) (IsDir : Bool) (Children : List FileNode)
deriving Inhabited, Repr

def FileNode.Name : FileNode → Str
  | .mk n _ _ _ => n

def FileNode.Path : FileNode → List Str
  | .mk _ p _ _ => p

def FileNode.IsDir : FileNode → Bool
  | .mk _ _ d _ => d

def FileNode.Children : FileNode → List FileNode
  | .mk _ _ _ cs => cs

/-- Strong induction principle for the nested inductive `FileNode`. -/
theorem fileNode_strongInd (P : FileNode → Prop)
    (h : ∀ n p d cs, (∀ c ∈ cs, P c) → P (.mk n p d cs)) : ∀ t, P t := by
  intro t
  induction t using FileNode.rec (motive_2 := fun l => ∀ c ∈ l, P c) with
  | mk n p d cs ih => exact h n p d cs ih
  | nil =>
      rename_i c hc
      exact absurd hc (List.not_mem_nil c)
  | cons a l iha ihl =>
      rename_i c hc
      rcases List.mem_cons.mp hc with rfl | h2
      · exact iha
      · exact ihl c h2

/-- Body of `addToTree`: walk `parts` down the child lists, descending into
the first child whose `Name` matches the next part, otherwise appending a
fresh node (a freshly created node gets the remaining parts nested inside
it, exactly as the source's loop does by reassigning `current`).  `done` is
the list of parts already consumed, so a fresh node's `Path` is
`Join(basePath, parts[:i+1])`. -/
def addTo (basePath : List Str) : List Str → List Str → Bool → List FileNode → List FileNode
  | _, [], _, cs => cs
  | done, p :: rest, isDir, [] =>
      [.mk p (basePath ++ done ++ [p]) (isDir || !rest.isEmpty)
        (addTo basePath (done ++ [p]) rest isDir [])]
  | done, p :: rest, isDir, c :: cs =>
      if c.Name = p then
        .mk c.Name c.Path c.IsDir (addTo basePath (done ++ [p]) rest isDir c.Children) :: cs
      else
        c :: addTo basePath done (p :: rest) isDir cs
termination_by done parts isDir cs => (parts.length, cs.length)

/-- `addToTree(root, basePath, fullPath, isDir)` of the source; `rel` is the
already-split relative path `filepath.Rel(basePath, fullPath)`. -/
def addToTree (basePath : List Str) (root : FileNode) (rel : List Str) (isDir : Bool) : FileNode :=
  .mk root.Name root.Path root.IsDir (addTo basePath [] rel isDir root.Children)

/-- The comparison function passed to `sort.Slice` in `sortTree`:
directories first, then case-insensitively by name. -/
def nodeLess (a b : FileNode) : Bool :=
  if a.IsDir != b.IsDir then a.IsDir else strLt (lowerStr a.Name) (lowerStr b.Name)

/-- The non-strict version of `nodeLess`; a list sorted by Go's
`sort.Slice` with `nodeLess` is pairwise `nodeLE`-ordered. -/
def nodeLE (a b : FileNode) : Prop := nodeLess b a = false

instance : DecidableRel nodeLE := fun a b =>
  inferInstanceAs (Decidable (nodeLess b a = false))

/- `sortTree` of the source.  The source sorts `node.Children` by
`nodeLess` and then recursively sorts each child; since sorting never
inspects nor changes the fields the comparison reads (`IsDir`, `Name`),
recursing first and then sorting (as written here, which Lean's
termination checker accepts directly) produces the same tree.
`sort.Slice` is an unstable sort; it is modelled by insertion sort, which
yields a `nodeLE`-sorted permutation just as the source does (ties between
equal keys carry no claim). -/
mutual

def sortTree : FileNode → FileNode
  | .mk n p d cs => .mk n p d (List.insertionSort nodeLE (sortTreeL cs))

def sortTreeL : List FileNode → List FileNode
  | [] => []
  | c :: cs => sortTree c :: sortTreeL cs

end

/-- Model of `filepath.Base`. -/
def baseName (segs : List Str) : Str := segs.getLastD []

/-- One entry of the quick scan's directory listing, as the loop body of
`FindMarkdownFilesQuick` processes it: skip hidden names, skip ignored
names, insert directories, insert markdown files, skip the rest.  `ign` is
the loaded gitignore matcher (`none` when `includeIgnored` is set, the
ignore file is absent, or loading failed). -/
def quickStep (rootPath : List Str) (ign : Option (Str → Bool)) (acc : FileNode) (e : FS) :
    FileNode :=
  let name := e.name
  if startsDot name then acc
  else if (match ign with | some f => f name | none => false) then acc
  else if e.isDir then addToTree rootPath acc [name] true
  else if hasSuffixMd name then addToTree rootPath acc [name] false
  else acc

/-- `FindMarkdownFilesQuick` of the source: one `os.ReadDir` of the root,
no recursion, looping `quickStep` over the listed entries.  `entries` is
`none` when `os.ReadDir` fails, in which case the source returns the empty
root and a nil error before sorting. -/
def FindMarkdownFilesQuick (rootPath : List Str) (ign : Option (Str → Bool))
    (entries : Option (List FS)) : FileNode × Option Str :=
  let root : FileNode := .mk (baseName rootPath) rootPath true []
  match entries with
  | none => (root, none)
  | some es => (sortTree (es.foldl (quickStep rootPath ign) root), none)

/- The `filepath.WalkDir` callback of `FindMarkdownFilesWithDepth`,
together with the walk itself.  `walkOne` processes the entry `e` whose
relative path is `parentRel ++ [e.name]`: the depth test
(`len(strings.Split(rel, sep)) - 1 > maxDepth`, with `SkipDir` for
directories), the hidden-directory test (`d.IsDir() && HasPrefix(name, ".")
&& path != rootPath`, `SkipDir`), the gitignore test, and the extension
test, then `addToTree`; a directory that was not skipped has its entries
walked.  The root's own callback invocation only returns nil (all its
tests fall through to the `path == rootPath` early return), so it is not
modelled explicitly. -/
mutual

def walkOne (rootPath : List Str) (ign : Option (List Str → Bool)) (maxDepth : Int)
    (acc : FileNode) (parentRel : List Str) (e : FS) : FileNode :=
  let name := e.name
  let rel := parentRel ++ [name]
  let depth : Int := (rel.length : Int) - 1
  if maxDepth ≥ 0 ∧ depth > maxDepth then acc
  else if e.isDir && startsDot name then acc
  else if (match ign with | some f => f rel | none => false) then acc
  else if !e.isDir && !hasSuffixMd name then acc
  else
    let acc1 := addToTree rootPath acc rel e.isDir
    match e with
    | .file _ => acc1
    | .dir _ es => walkList rootPath ign maxDepth acc1 rel es

def walkList (rootPath : List Str) (ign : Option (List Str → Bool)) (maxDepth : Int)
    (acc : FileNode) (rel : List Str) : List FS → FileNode
  | [] => acc
  | e :: es => walkList rootPath ign maxDepth (walkOne rootPath ign maxDepth acc rel e) rel es

end

/-- `FindMarkdownFilesWithDepth` of the source.  The callback swallows every
per-entry error and only ever returns nil or `SkipDir`, so the walk's error
is always nil: a root whose entries cannot be read (modelled by
`entries = none`) still yields the sorted empty root and a nil error. -/
def FindMarkdownFilesWithDepth (rootPath : List Str) (ign : Option (List Str → Bool))
    (maxDepth : Int) (entries : Option (List FS)) : FileNode × Option Str :=
  let root : FileNode := .mk (baseName rootPath) rootPath true []
  match entries with
  | none => (sortTree root, none)
  | some es => (sortTree (walkList rootPath ign maxDepth root [] es), none)

/-- `FindMarkdownFiles` of the source: unbounded depth. -/
def FindMarkdownFiles (rootPath : List Str) (ign : Option (List Str → Bool))
    (entries : Option (List FS)) : FileNode × Option Str :=
  FindMarkdownFilesWithDepth rootPath ign (-1) entries

/-- The display line `FlattenTree` builds for a non-root node: sliced
prefix, branch glyph by `isLast`, and `[+] name/` or `[-] name` by the
directory flag. -/
def lineFor (pre : Str) (isLast isDir : Bool) (name : Str) : Str :=
  (if isLast then cut4 pre ++ "└── ".data else cut4 pre ++ "├── ".data) ++
    (if isDir then "[+] ".data ++ name ++ "/".data else "[-] ".data ++ name)

/-- The `newPrefix` computation of `FlattenTree`. -/
def childPre (pre : Str) (isLast : Bool) : Str :=
  if pre = [] then "    ".data
  else if isLast then cut4 pre ++ "    ".data
  else cut4 pre ++ "│   ".data

/- `FlattenTree` of the source: the root (empty prefix) produces no line;
each child is rendered with prefix `newPrefix + "    "` and `isLast` true
exactly for the final child. -/
mutual

def FlattenTree : FileNode → Str → Bool → List Str
  | .mk name _ isDir cs, pre, isLast =>
      (if pre ≠ [] then [lineFor pre isLast isDir name] else []) ++
        flattenKids cs (childPre pre isLast ++ "    ".data)

def flattenKids : List FileNode → Str → List Str
  | [], _ => []
  | [c], pre => FlattenTree c pre true
  | c :: c2 :: cs, pre => FlattenTree c pre false ++ flattenKids (c2 :: cs) pre

end

/- `CollectFiles` of the source: depth-first collection of the paths of
non-directory nodes. -/
mutual

def CollectFiles : FileNode → List (List Str)
  | .mk _ path isDir cs => (if isDir then [] else [path]) ++ collectKids cs

def collectKids : List FileNode → List (List Str)
  | [] => []
  | c :: cs => CollectFiles c ++ collectKids cs

end

/- Annotated mirror of `FlattenTree`: alongside each emitted display line
it records the originating node's directory flag, name and path, so that
the line sequence and the file index can be related entry by entry. -/
mutual

def flattenAnn : FileNode → Str → Bool → List (Bool × Str × Str × List Str)
  | .mk name path isDir cs, pre, isLast =>
      (if pre ≠ [] then [(isDir, lineFor pre isLast isDir name, name, path)] else []) ++
        annKids cs (childPre pre isLast ++ "    ".data)

def annKids : List FileNode → Str → List (Bool × Str × Str × List Str)
  | [], _ => []
  | [c], pre => flattenAnn c pre true
  | c :: c2 :: cs, pre => flattenAnn c pre false ++ annKids (c2 :: cs) pre

end

/- The prefix argument of every `FlattenTree` invocation in the call tree
rooted at the given one (the root invocation's prefix first). -/
mutual

def preArgs : FileNode → Str → Bool → List Str
  | .mk _ _ _ cs, pre, isLast =>
      pre :: preArgsKids cs (childPre pre isLast ++ "    ".data)

def preArgsKids : List FileNode → Str → List Str
  | [], _ => []
  | [c], pre => preArgs c pre true
  | c :: c2 :: cs, pre => preArgs c pre false ++ preArgsKids (c2 :: cs) pre

end

/-- `findTreeLineForFile` of the source: first display line containing both
the file marker `[-]` and the selected document's base name; defensively 0
for an invalid index or no match. -/
def findTreeLineForFile (fileIndex : Int) (treeLines : List Str)
    (allFiles : List (List Str)) : Int :=
  if fileIndex < 0 ∨ (allFiles.length : Int) ≤ fileIndex then 0
  else
    let targetFile := allFiles.getD fileIndex.toNat []
    let filename := targetFile.getLastD []
    match treeLines.findIdx? (fun line =>
        containsSub line ("[-]".data) && containsSub line filename) with
    | some i => (i : Int)
    | none => 0

/-- Go `min` on ints. -/
def goMin (a b : Int) : Int := if a < b then a else b

/-- Go `max` on ints. -/
def goMax (a b : Int) : Int := if a > b then a else b

/-- `minFloat` of the source, over the rational model of `float64`. -/
def minFloat (a b : ℚ) : ℚ := if a < b then a else b

/-- `maxFloat` of the source, over the rational model of `float64`. -/
def maxFloat (a b : ℚ) : ℚ := if a > b then a else b

/-- Go's `int(x)` conversion from the float model: truncation toward zero. -/
def goInt (q : ℚ) : Int := if q < 0 then -Int.floor (-q) else Int.floor q

/-- A rendering engine: `glamour.TermRenderer.Render`, abstractly.  `none`
models a render error. -/
abbrev Renderer := Str → Option Str

/-- The environment of effects the controller's `Update` interacts with:
the scan root and its (abstract) disk content, the loaded ignore matchers,
whole-file reads, and renderer construction
(`glamour.NewTermRenderer(...)`, `none` modelling a construction error). -/
structure Env where
  rootPath : List Str
  ignQ : Option (Str → Bool)
  ignW : Option (List Str → Bool)
  entries : Option (List FS)
  readFile : List Str → Except Str Str
  newRenderer : Int → Option Renderer

/-- The `DualPaneModel` struct of the source.  The process-wide
`dualRendererCache` (a width-keyed map guarded by a RW mutex; the
single-threaded event loop is the only mutator relevant here) is carried as
the `cache` field. -/
structure DualPaneModel where
  fileTree : FileNode
  allFiles : List (List Str)
  treeLines : List Str
  selectedIndex : Int
  treeViewport : Int
  contentViewport : Int
  currentContent : Str
  renderedLines : List Str
  width : Int
  height : Int
  splitRatio : ℚ
  renderer : Option Renderer
  focusedPane : Int
  raw : Bool
  treeSelectedIdx : Int
  isExpanding : Bool
  currentDepth : Int
  cache : List (Int × Renderer)

/-- Lookup in the width-keyed renderer cache. -/
def lookupCache : List (Int × Renderer) → Int → Option Renderer
  | [], _ => none
  | (w, r) :: t, k => if w = k then some r else lookupCache t k

/-- `ensureRenderer` of the source: if no renderer is held, take the
width-60 default from the cache, else construct one and cache it on
success; on construction failure leave the renderer absent. -/
def ensureRenderer (env : Env) (m : DualPaneModel) : DualPaneModel :=
  if m.renderer.isSome then m
  else
    match lookupCache m.cache 60 with
    | some r => { m with renderer := some r }
    | none =>
        match env.newRenderer 60 with
        | some r => { m with renderer := some r, cache := m.cache ++ [(60, r)] }
        | none => m

/-- `refreshContent` of the source: raw mode splits the current content
verbatim; otherwise render through the (ensured) renderer, falling back to
the verbatim split when no renderer exists or rendering fails. -/
def refreshContent (env : Env) (m : DualPaneModel) : DualPaneModel :=
  if m.raw then { m with renderedLines := splitNl m.currentContent }
  else
    let m1 := ensureRenderer env m
    match m1.renderer with
    | some r =>
        match r m1.currentContent with
        | some rendered => { m1 with renderedLines := splitNl rendered }
        | none => { m1 with renderedLines := splitNl m1.currentContent }
    | none => { m1 with renderedLines := splitNl m1.currentContent }

/-- `loadFile` of the source: out-of-range indices are ignored; a failed
read replaces the content with a single formatted error string (the
viewport is left as it was); a successful read refreshes the rendered
lines and resets the content viewport to 0. -/
def loadFile (env : Env) (m : DualPaneModel) (index : Int) : DualPaneModel :=
  if index < 0 ∨ (m.allFiles.length : Int) ≤ index then m
  else
    match env.readFile (m.allFiles.getD index.toNat []) with
    | .error err =>
        let msg := "Error loading file: ".data ++ err
        { m with currentContent := msg, renderedLines := splitNl msg }
    | .ok content =>
        let m1 := refreshContent env { m with currentContent := content }
        { m1 with contentViewport := 0 }

/-- `adjustTreeViewport` of the source. -/
def adjustTreeViewport (m : DualPaneModel) : DualPaneModel :=
  let availableHeight := m.height - 2
  if m.treeSelectedIdx < m.treeViewport then { m with treeViewport := m.treeSelectedIdx }
  else if m.treeSelectedIdx ≥ m.treeViewport + availableHeight then
    { m with treeViewport := m.treeSelectedIdx - availableHeight + 1 }
  else m

/-- The wrap width `updateRendererWidth` computes from the current width
and split ratio. -/
def wrapWidth (m : DualPaneModel) : Int :=
  let contentWidth := goInt ((m.width : ℚ) * (1 - m.splitRatio))
  let wrappingWidth := contentWidth - 6
  if wrappingWidth < 40 then 40 else wrappingWidth

/-- `updateRendererWidth` of the source.  On a cache hit it installs the
cached renderer and returns without re-rendering; on a miss it constructs
a renderer, and only on success caches it and calls `refreshContent` (the
two consecutive `if err == nil` blocks of the source). -/
def updateRendererWidth (env : Env) (m : DualPaneModel) : DualPaneModel :=
  let w := wrapWidth m
  match lookupCache m.cache w with
  | some r => { m with renderer := some r }
  | none =>
      match env.newRenderer w with
      | some r => refreshContent env { m with renderer := some r, cache := m.cache ++ [(w, r)] }
      | none => m

/-- The key messages of the `tea.KeyMsg` branch of `Update` (presentation
detail such as alternative bindings for the same action is collapsed). -/
inductive Key where
  | q | tab | h | l | j | k | enter | ctrlD | ctrlU | g | G | r | lt | gt | e
deriving DecidableEq, Repr

/-- The messages `Update` handles.  `loadComplete` carries the result of
the background depth-0 scan; `performExpansion` triggers the synchronous
deepening step; `wheel` is a mouse-wheel event at column `x`. -/
inductive Msg where
  | key (ky : Key)
  | windowSize (w h : Int)
  | wheel (up : Bool) (x : Int)
  | performExpansion
  | loadComplete (res : Except Str FileNode)
  | initialLoad
deriving Repr

/-- `Update` of the source `DualPaneModel`, state part (returned commands
only schedule further messages and are not modelled).  Each branch mirrors
the corresponding `case` of the source's switch. -/
def update (env : Env) (m : DualPaneModel) (msg : Msg) : DualPaneModel :=
  match msg with
  | .initialLoad =>
      if m.currentDepth = -1 then { m with currentDepth := 0, isExpanding := true } else m
  | .loadComplete (.error e) =>
      { m with treeLines := ["Error loading files: ".data ++ e], isExpanding := false }
  | .loadComplete (.ok t) =>
      let m1 := { m with fileTree := t, allFiles := CollectFiles t,
                         treeLines := FlattenTree t [] false, isExpanding := false }
      if 0 < m1.allFiles.length then
        loadFile env { m1 with selectedIndex := 0,
                               treeSelectedIdx := findTreeLineForFile 0 m1.treeLines m1.allFiles } 0
      else m1
  | .performExpansion =>
      if m.isExpanding then m
      else
        let d := m.currentDepth + 1
        let newTree := (FindMarkdownFilesWithDepth env.rootPath env.ignW d env.entries).1
        let newFiles := CollectFiles newTree
        if m.allFiles.length < newFiles.length then
          let m2 := { m with currentDepth := d, fileTree := newTree, allFiles := newFiles,
                             treeLines := FlattenTree newTree [] false }
          if m.selectedIndex < (newFiles.length : Int) then
            { m2 with treeSelectedIdx := findTreeLineForFile m.selectedIndex m2.treeLines m2.allFiles }
          else m2
        else { m with currentDepth := d }
  | .windowSize w h =>
      updateRendererWidth env { m with width := w, height := h - 2 }
  | .wheel up x =>
      let treeWidth := goInt ((m.width : ℚ) * m.splitRatio)
      if x < treeWidth then
        if up ∧ m.treeViewport > 0 then { m with treeViewport := m.treeViewport - 1 }
        else if ¬up ∧ m.treeViewport < (m.treeLines.length : Int) - (m.height - 2) then
          { m with treeViewport := m.treeViewport + 1 }
        else m
      else
        if up ∧ m.contentViewport > 0 then { m with contentViewport := m.contentViewport - 1 }
        else if ¬up ∧ m.contentViewport < (m.renderedLines.length : Int) - (m.height - 2) then
          { m with contentViewport := m.contentViewport + 1 }
        else m
  | .key ky =>
      match ky with
      | .q => m
      | .tab => { m with focusedPane := (m.focusedPane + 1) % 2 }
      | .h => if m.focusedPane = 1 then { m with focusedPane := 0 } else m
      | .l => if m.focusedPane = 0 then { m with focusedPane := 1 } else m
      | .j =>
          if m.focusedPane = 0 then
            if m.selectedIndex < (m.allFiles.length : Int) - 1 then
              let m1 := { m with selectedIndex := m.selectedIndex + 1 }
              let m2 := { m1 with treeSelectedIdx :=
                            findTreeLineForFile m1.selectedIndex m1.treeLines m1.allFiles }
              adjustTreeViewport (loadFile env m2 m2.selectedIndex)
            else m
          else
            if m.contentViewport < (m.renderedLines.length : Int) - (m.height - 2) then
              { m with contentViewport := m.contentViewport + 1 }
            else m
      | .k =>
          if m.focusedPane = 0 then
            if m.selectedIndex > 0 then
              let m1 := { m with selectedIndex := m.selectedIndex - 1 }
              let m2 := { m1 with treeSelectedIdx :=
                            findTreeLineForFile m1.selectedIndex m1.treeLines m1.allFiles }
              adjustTreeViewport (loadFile env m2 m2.selectedIndex)
            else m
          else
            if m.contentViewport > 0 then { m with contentViewport := m.contentViewport - 1 }
            else m
      | .enter =>
          if m.focusedPane = 0 ∧ 0 ≤ m.selectedIndex ∧ m.selectedIndex < (m.allFiles.length : Int) then
            { m with focusedPane := 1, contentViewport := 0 }
          else m
      | .ctrlD =>
          if m.focusedPane = 1 then
            let availableHeight := m.height - 2
            let cv := m.contentViewport + availableHeight.tdiv 2
            if cv > (m.renderedLines.length : Int) - availableHeight then
              { m with contentViewport := goMax 0 ((m.renderedLines.length : Int) - availableHeight) }
            else { m with contentViewport := cv }
          else m
      | .ctrlU =>
          if m.focusedPane = 1 then
            let availableHeight := m.height - 2
            let cv := m.contentViewport - availableHeight.tdiv 2
            if cv < 0 then { m with contentViewport := 0 }
            else { m with contentViewport := cv }
          else m
      | .g =>
          if m.focusedPane = 1 then { m with contentViewport := 0 }
          else
            let m1 := { m with selectedIndex := 0,
                               treeSelectedIdx := findTreeLineForFile 0 m.treeLines m.allFiles,
                               treeViewport := 0 }
            if 0 < m1.allFiles.length then loadFile env m1 0 else m1
      | .G =>
          if m.focusedPane = 1 then
            { m with contentViewport := goMax 0 ((m.renderedLines.length : Int) - (m.height - 2)) }
          else
            let m1 := { m with selectedIndex := (m.allFiles.length : Int) - 1 }
            let m2 := { m1 with treeSelectedIdx :=
                          findTreeLineForFile m1.selectedIndex m1.treeLines m1.allFiles }
            adjustTreeViewport (loadFile env m2 m2.selectedIndex)
      | .r => refreshContent env { m with raw := !m.raw }
      | .lt => updateRendererWidth env { m with splitRatio := maxFloat (2/10) (m.splitRatio - 5/100) }
      | .gt => updateRendererWidth env { m with splitRatio := minFloat (5/10) (m.splitRatio + 5/100) }
      | .e => m

/-- `renderContentAsync` of the single-document viewer, lines part (the
error it reports alongside is consumed by `Update` to produce exactly the
same verbatim fallback). -/
def renderContentAsync (content : Str) (renderer : Option Renderer) (raw : Bool) : List Str :=
  if raw || renderer.isNone || content.isEmpty then splitNl content
  else
    match renderer with
    | none => splitNl content
    | some f =>
        match f content with
        | none => splitNl content
        | some rendered => splitNl rendered

/-- A string without a line break splits into exactly itself. -/
theorem splitNl_eq_single : ∀ s : Str, '\n' ∉ s → splitNl s = [s]
  | [], _ => rfl
  | c :: t, h => by
      have hc : ¬c = '\n' := fun e => h (e ▸ List.mem_cons_self c t)
      have ht := splitNl_eq_single t (fun hm => h (List.mem_cons_of_mem c hm))
      simp [splitNl, hc, ht]

/-- UTF-8 length is additive over append. -/
theorem utf8Len_append (a b : Str) : utf8Len (a ++ b) = utf8Len a + utf8Len b := by
  simp [utf8Len]

/-- A fully empty environment used to instantiate witnesses. -/
def envEmpty : Env :=
  { rootPath := ["r".data], ignQ := none, ignW := none, entries := none,
    readFile := fun _ => Except.error [], newRenderer := fun _ => none }

/-- A baseline controller state used to instantiate witnesses, matching the
fields `NewDualPaneModel` initializes (before the first scan completes). -/
def modelBase : DualPaneModel :=
  { fileTree := .mk "r".data ["r".data] true [], allFiles := [], treeLines := [],
    selectedIndex := 0, treeViewport := 0, contentViewport := 0, currentContent := [],
    renderedLines := [], width := 0, height := 0, splitRatio := 3/10, renderer := none,
    focusedPane := 0, raw := false, treeSelectedIdx := 0, isExpanding := false,
    currentDepth := 0, cache := [] }

/-- C7: for every root whose entries cannot be read (including a nonexistent
root), both the quick scan and the depth-bounded scan return a root node
with the directory flag set and no children, together with a nil error. -/
theorem scans_unreadable_root_valid (rootPath : List Str) (ignQ : Option (Str → Bool))
    (ignW : Option (List Str → Bool)) (maxDepth : Int) :
    (FindMarkdownFilesQuick rootPath ignQ none).1.IsDir = true ∧
    (FindMarkdownFilesQuick rootPath ignQ none).1.Children = [] ∧
    (FindMarkdownFilesQuick rootPath ignQ none).2 = none ∧
    (FindMarkdownFilesWithDepth rootPath ignW maxDepth none).1.IsDir = true ∧
    (FindMarkdownFilesWithDepth rootPath ignW maxDepth none).1.Children = [] ∧
    (FindMarkdownFilesWithDepth rootPath ignW maxDepth none).2 = none := by
  refine ⟨rfl, rfl, rfl, ?_, ?_, rfl⟩ <;>
    simp [FindMarkdownFilesWithDepth, sortTree, sortTreeL, List.insertionSort,
      FileNode.IsDir, FileNode.Children]

/-- C9: in raw mode, when no rendering engine is available, or when
rendering fails, both the single-document render pipeline and the
dual-pane `refreshContent` produce exactly the verbatim line split of the
input text. -/
theorem render_fallback_verbatim (content : Str) (renderer : Option Renderer) (raw : Bool)
    (env : Env) (m : DualPaneModel)
    (h1 : raw = true ∨ renderer = none ∨ ∃ f, renderer = some f ∧ f content = none)
    (h2 : m.raw = true ∨
          (m.renderer = none ∧ lookupCache m.cache 60 = none ∧ env.newRenderer 60 = none) ∨
          ∃ f, m.renderer = some f ∧ f m.currentContent = none) :
    renderContentAsync content renderer raw = splitNl content ∧
    (refreshContent env m).renderedLines = splitNl m.currentContent := by
  constructor
  · rcases h1 with rfl | rfl | ⟨f, rfl, hf⟩
    · simp [renderContentAsync]
    · simp [renderContentAsync]
    · simp only [renderContentAsync]
      split_ifs with hcond
      · rfl
      · simp [hf]
  · rcases h2 with hraw | ⟨hr, hc, hn⟩ | ⟨f, hf, hfc⟩
    · simp [refreshContent, hraw]
    · have hens : ensureRenderer env m = m := by
        simp [ensureRenderer, hr, hc, hn]
      by_cases hraw : m.raw = true
      · simp [refreshContent, hraw]
      · have hraw' : m.raw = false := by revert hraw; cases m.raw <;> simp
        simp [refreshContent, hraw', hens, hr]
    · have hens : ensureRenderer env m = m := by
        simp [ensureRenderer, hf]
      by_cases hraw : m.raw = true
      · simp [refreshContent, hraw]
      · have hraw' : m.raw = false := by revert hraw; cases m.raw <;> simp
        simp [refreshContent, hraw', hens, hf, hfc]

/-- Witness for C9 at the spec's Scenario D input: raw mode on
`"# H\n\nbody"` yields exactly the three verbatim lines. -/
theorem render_fallback_verbatim_witness :
    renderContentAsync ("# H\n\nbody".data) none true = ["# H".data, [], "body".data] := by
  have h := render_fallback_verbatim ("# H\n\nbody".data) none true envEmpty
    { modelBase with raw := true } (Or.inl rfl) (Or.inl rfl)
  rw [h.1]
  rfl

/-- The environment whose every file read fails with message `boom`. -/
def envBoom : Env := { envEmpty with readFile := fun _ => Except.error "boom".data }

/-- A state with one indexed document and a scrolled content viewport. -/
def modelCv3 : DualPaneModel :=
  { modelBase with contentViewport := 3, allFiles := [["a.md".data]] }

/-- C3 counterexample: with an in-range selection whose file read fails,
`loadFile` leaves the content viewport at its previous value (here 3)
instead of resetting it to 0 — the error return path skips the reset. -/
theorem load_error_keeps_viewport_cex :
    (0 : Int) ≤ 0 ∧
    (0 : Int) < (modelCv3.allFiles.length : Int) ∧
    (loadFile envBoom modelCv3 0).contentViewport ≠ 0 := by
  refine ⟨le_refl 0, by simp [modelCv3, modelBase], ?_⟩
  simp [loadFile, envBoom, envEmpty, modelCv3, modelBase]

/-- C3 amended: for every in-range selected index, a failing load replaces
the content lines with exactly one formatted error line while leaving the
content viewport unchanged; only a successful load resets the content
viewport to 0. -/
theorem load_result (env : Env) (m : DualPaneModel) (i : Int)
    (h0 : 0 ≤ i) (h1 : i < (m.allFiles.length : Int)) :
    (∀ e, env.readFile (m.allFiles.getD i.toNat []) = .error e → '\n' ∉ e →
        (loadFile env m i).renderedLines = ["Error loading file: ".data ++ e] ∧
        (loadFile env m i).contentViewport = m.contentViewport) ∧
    (∀ c, env.readFile (m.allFiles.getD i.toNat []) = .ok c →
        (loadFile env m i).contentViewport = 0) := by
  have hrange : ¬(i < 0 ∨ (m.allFiles.length : Int) ≤ i) := by omega
  constructor
  · intro e he hnl
    have hmsg : '\n' ∉ ("Error loading file: ".data ++ e) := by
      intro hm
      rcases List.mem_append.mp hm with hm | hm
      · revert hm; decide
      · exact hnl hm
    have hred : loadFile env m i =
        { m with currentContent := "Error loading file: ".data ++ e,
                 renderedLines := splitNl ("Error loading file: ".data ++ e) } := by
      simp only [loadFile]
      rw [if_neg hrange, he]
    rw [hred, splitNl_eq_single _ hmsg]
    exact ⟨rfl, rfl⟩
  · intro c hc
    have hred : loadFile env m i =
        { refreshContent env { m with currentContent := c } with contentViewport := 0 } := by
      simp only [loadFile]
      rw [if_neg hrange, hc]
    rw [hred]

/-- Witness for C3 amended at a concrete state: index 0 of a one-file
index, failing read on the first branch, succeeding read on the second. -/
theorem load_result_witness :
    (0 : Int) ≤ 0 ∧
    (loadFile envBoom modelCv3 0).renderedLines = ["Error loading file: boom".data] := by
  refine ⟨le_refl 0, ?_⟩
  have h := (load_result envBoom modelCv3 0
      (le_refl 0) (by simp [modelCv3, modelBase])).1 ("boom".data) rfl (by decide)
  rw [h.1]
  rfl

/-- C5: a deepening step (triggered while no scan is in flight) whose scan
does not discover strictly more documents than currently known leaves every
field of the model unchanged except the depth counter, which increments. -/
theorem expansion_no_new_files_noop (env : Env) (m : DualPaneModel)
    (h1 : m.isExpanding = false)
    (h2 : (CollectFiles (FindMarkdownFilesWithDepth env.rootPath env.ignW
        (m.currentDepth + 1) env.entries).1).length ≤ m.allFiles.length) :
    update env m .performExpansion = { m with currentDepth := m.currentDepth + 1 } := by
  simp only [update, h1, Bool.false_eq_true, if_false]
  rw [if_neg (by omega)]

/-- Witness for C5: a settled empty root rescanned at depth 1 finds no new
documents; the state only advances its depth counter. -/
theorem expansion_no_new_files_noop_witness :
    modelBase.isExpanding = false ∧
    update envEmpty modelBase .performExpansion =
      { modelBase with currentDepth := modelBase.currentDepth + 1 } := by
  refine ⟨rfl, expansion_no_new_files_noop envEmpty modelBase rfl ?_⟩
  simp [envEmpty, modelBase, FindMarkdownFilesWithDepth, sortTree, sortTreeL,
    List.insertionSort, CollectFiles, collectKids]

/-- Every prefix handed to a recursive `FlattenTree` call is the parent's
extended prefix, which always ends in four one-byte spaces. -/
theorem preArgsKids_shape : ∀ cs : List FileNode, ∀ pre0 p,
    (∀ c ∈ cs, ∀ pr l q, q ∈ preArgs c pr l → q = pr ∨ ∃ x, q = x ++ "    ".data) →
    (∃ y, pre0 = y ++ "    ".data) → p ∈ preArgsKids cs pre0 →
    ∃ x, p = x ++ "    ".data := by
  intro cs
  induction cs with
  | nil => intro pre0 p _ _ hp; simp [preArgsKids] at hp
  | cons c rest ihrest =>
    intro pre0 p hIH hpre hp
    cases rest with
    | nil =>
        rcases hIH c (by simp) pre0 true p (by simpa [preArgsKids] using hp) with rfl | hx
        · exact hpre
        · exact hx
    | cons c2 rest2 =>
        rw [show preArgsKids (c :: c2 :: rest2) pre0 =
              preArgs c pre0 false ++ preArgsKids (c2 :: rest2) pre0 from by
            simp [preArgsKids]] at hp
        rcases List.mem_append.mp hp with hp1 | hp2
        · rcases hIH c (by simp) pre0 false p hp1 with rfl | hx
          · exact hpre
          · exact hx
        · exact ihrest pre0 p (fun c' hc' => hIH c' (by simp [hc'])) hpre hp2

/-- Shape of every prefix argument in a `FlattenTree` call tree: the root
invocation's own prefix, or an extension ending in four spaces. -/
theorem preArgs_shape : ∀ t : FileNode, ∀ pre isLast p, p ∈ preArgs t pre isLast →
    p = pre ∨ ∃ x, p = x ++ "    ".data := by
  intro t
  induction t using fileNode_strongInd with
  | h n path d cs ih =>
    intro pre isLast p hp
    simp only [preArgs] at hp
    rcases List.mem_cons.mp hp with rfl | hp2
    · exact Or.inl rfl
    · exact Or.inr (preArgsKids_shape cs _ p ih ⟨childPre pre isLast, rfl⟩ hp2)

/-- C10: from the public entry point `FlattenTree(tree, "", false)`, the
initial call's prefix is empty and every recursive call's prefix is at
least 4 UTF-8 bytes long, so the slice `prefix[0:len(prefix)-4]` never
indexes out of bounds (and the total Lean model witnesses termination). -/
theorem flatten_slice_safe (t : FileNode) :
    (preArgs t [] false).head? = some [] ∧
    ∀ p ∈ (preArgs t [] false).tail, 4 ≤ utf8Len p := by
  obtain ⟨n, path, d, cs⟩ := t
  constructor
  · simp [preArgs]
  · intro p hp
    have hp2 : p ∈ preArgsKids cs (childPre [] false ++ "    ".data) := by
      simpa [preArgs] using hp
    have hshape := preArgsKids_shape cs _ p
      (fun c hc => preArgs_shape c) ⟨childPre [] false, rfl⟩ hp2
    rcases hshape with ⟨x, rfl⟩
    rw [utf8Len_append]
    have : utf8Len "    ".data = 4 := by decide
    omega

/-- Witness for C10 on a one-file tree: the single child call's prefix is
eight spaces, which is at least 4 bytes. -/
theorem flatten_slice_safe_witness :
    4 ≤ utf8Len ("        ".data) := by
  refine (flatten_slice_safe (.mk "r".data [] true [.mk "a.md".data [] false []])).2
    ("        ".data) ?_
  simp [preArgs, preArgsKids, childPre, cut4, utf8Len, takeBytes]

/-- String order: asymmetry. -/
theorem strLt_asymm : ∀ a b : Str, strLt a b = true → strLt b a = true → False
  | a, [], h1, _ => by simp [strLt] at h1
  | [], b :: bs, _, h2 => by simp [strLt] at h2
  | a :: as, b :: bs, h1, h2 => by
      simp only [strLt, Bool.or_eq_true, decide_eq_true_eq, Bool.and_eq_true, beq_iff_eq] at h1 h2
      rcases h1 with h1 | ⟨e1, h1⟩ <;> rcases h2 with h2 | ⟨e2, h2⟩
      · exact absurd h2 (lt_asymm h1)
      · exact absurd h1 (e2 ▸ lt_irrefl b)
      · exact absurd h2 (e1 ▸ lt_irrefl a)
      · exact strLt_asymm as bs h1 h2

/-- String order: transitivity. -/
theorem strLt_trans : ∀ a b c : Str, strLt a b = true → strLt b c = true → strLt a c = true
  | _, _, [], _, h2 => by simp [strLt] at h2
  | [], _, _ :: _, _, _ => by simp [strLt]
  | _ :: _, [], _ :: _, h1, _ => by simp [strLt] at h1
  | a :: as, b :: bs, c :: cs, h1, h2 => by
      simp only [strLt, Bool.or_eq_true, decide_eq_true_eq, Bool.and_eq_true, beq_iff_eq] at h1 h2 ⊢
      rcases h1 with h1 | ⟨e1, h1⟩ <;> rcases h2 with h2 | ⟨e2, h2⟩
      · exact Or.inl (lt_trans h1 h2)
      · exact Or.inl (e2 ▸ h1)
      · exact Or.inl (e1 ▸ h2)
      · exact Or.inr ⟨e1.trans e2, strLt_trans as bs cs h1 h2⟩

/-- String order: two strings neither of which is below the other are equal. -/
theorem strLt_connex : ∀ a b : Str, strLt a b = false → strLt b a = false → a = b
  | [], [], _, _ => rfl
  | [], b :: bs, h1, _ => by simp [strLt] at h1
  | a :: as, [], _, h2 => by simp [strLt] at h2
  | a :: as, b :: bs, h1, h2 => by
      simp only [strLt, Bool.or_eq_false_iff, decide_eq_false_iff_not, Bool.and_eq_false_iff,
        beq_eq_false_iff_ne, ne_eq] at h1 h2
      have he : a = b := le_antisymm (not_lt.mp h2.1) (not_lt.mp h1.1)
      have h1r : strLt as bs = false := by
        rcases h1.2 with h | h
        · exact absurd he h
        · exact h
      have h2r : strLt bs as = false := by
        rcases h2.2 with h | h
        · exact absurd he.symm h
        · exact h
      rw [he, strLt_connex as bs h1r h2r]

/-- From `¬(a < b)` and `¬(b < c)` conclude `¬(a < c)` for the string order. -/
theorem strLt_false_trans (a b c : Str) (h1 : strLt b a = false) (h2 : strLt c b = false) :
    strLt c a = false := by
  by_contra hcon
  have hca : strLt c a = true := by revert hcon; cases strLt c a <;> simp
  cases hab : strLt a b with
  | true => exact absurd (strLt_trans c a b hca hab) (by simp [h2])
  | false =>
      have : a = b := strLt_connex a b hab h1
      exact absurd hca (by simp [this ▸ h2])

instance : IsTotal FileNode nodeLE := ⟨by
  intro a b
  by_contra hcon
  push_neg at hcon
  obtain ⟨h1, h2⟩ := hcon
  have h1' : nodeLess b a = true := by
    revert h1; unfold nodeLE; cases nodeLess b a <;> simp
  have h2' : nodeLess a b = true := by
    revert h2; unfold nodeLE; cases nodeLess a b <;> simp
  cases ha : a.IsDir <;> cases hb : b.IsDir <;>
    simp [nodeLess, ha, hb] at h1' h2'
  · exact strLt_asymm _ _ h1' h2'
  · exact strLt_asymm _ _ h1' h2'⟩

instance : IsTrans FileNode nodeLE := ⟨by
  intro a b c hab hbc
  unfold nodeLE at *
  cases ha : a.IsDir <;> cases hb : b.IsDir <;> cases hc : c.IsDir <;>
    simp [nodeLess, ha, hb, hc] at hab hbc ⊢
  · exact strLt_false_trans _ _ _ hab hbc
  · exact strLt_false_trans _ _ _ hab hbc⟩

/-- The sorting invariant of the spec for one child list: directory
children precede non-directory children, and within equal directory flags
lowercased names are non-decreasing. -/
def childrenOrdered (cs : List FileNode) : Prop :=
  List.Pairwise (fun a b => (b.IsDir = true → a.IsDir = true) ∧
    (a.IsDir = b.IsDir → strLt (lowerStr b.Name) (lowerStr a.Name) = false)) cs

/- The sorting invariant for a whole tree: every node's children are
ordered, recursively. -/
mutual

def treeSorted : FileNode → Prop
  | .mk _ _ _ cs => childrenOrdered cs ∧ treeSortedL cs

def treeSortedL : List FileNode → Prop
  | [] => True
  | c :: cs => treeSorted c ∧ treeSortedL cs

end

/-- A list is `treeSortedL` exactly when each member is `treeSorted`. -/
theorem treeSortedL_iff : ∀ l, treeSortedL l ↔ ∀ c ∈ l, treeSorted c := by
  intro l
  induction l with
  | nil => simp [treeSortedL]
  | cons c cs ih => simp [treeSortedL, ih]

/-- A `nodeLE`-ordered pair satisfies the spec's sorting relation. -/
theorem nodeLE_pair {a b : FileNode} (h : nodeLE a b) :
    (b.IsDir = true → a.IsDir = true) ∧
    (a.IsDir = b.IsDir → strLt (lowerStr b.Name) (lowerStr a.Name) = false) := by
  unfold nodeLE at h
  cases ha : a.IsDir <;> cases hb : b.IsDir <;>
    simp [nodeLess, ha, hb] at h ⊢ <;> exact h

/-- Membership in the recursively sorted child list. -/
theorem mem_sortTreeL : ∀ (l : List FileNode) (c' : FileNode),
    c' ∈ sortTreeL l ↔ ∃ c ∈ l, c' = sortTree c := by
  intro l
  induction l with
  | nil => simp [sortTreeL]
  | cons c cs ih =>
      intro c'
      rw [show sortTreeL (c :: cs) = sortTree c :: sortTreeL cs from by simp [sortTreeL]]
      constructor
      · intro hmem
        rcases List.mem_cons.mp hmem with rfl | hmem2
        · exact ⟨c, List.mem_cons_self c cs, rfl⟩
        · obtain ⟨c0, hc0, rfl⟩ := (ih c').mp hmem2
          exact ⟨c0, List.mem_cons_of_mem c hc0, rfl⟩
      · rintro ⟨c0, hc0, rfl⟩
        rcases List.mem_cons.mp hc0 with rfl | hc02
        · exact List.mem_cons_self _ _
        · exact List.mem_cons_of_mem _ ((ih _).mpr ⟨c0, hc02, rfl⟩)

/-- `sortTree` establishes the sorting invariant on every tree. -/
theorem sortTree_sorted : ∀ t, treeSorted (sortTree t) := by
  intro t
  induction t using fileNode_strongInd with
  | h n p d cs ih =>
    rw [show sortTree (.mk n p d cs) = .mk n p d (List.insertionSort nodeLE (sortTreeL cs))
      from by simp [sortTree]]
    refine ⟨?_, ?_⟩
    · exact (List.sorted_insertionSort nodeLE (sortTreeL cs)).imp (fun hab => nodeLE_pair hab)
    · rw [treeSortedL_iff]
      intro c' hc'
      have hmem : c' ∈ sortTreeL cs :=
        (List.perm_insertionSort nodeLE (sortTreeL cs)).mem_iff.mp hc'
      obtain ⟨c, hc, rfl⟩ := (mem_sortTreeL cs c').mp hmem
      exact ih c hc

/-- C8: in every tree returned by a scan, at every node all directory
children precede all non-directory children and, within each group,
lowercased names are non-decreasing. -/
theorem scans_sorted (rootPath : List Str) (ignQ : Option (Str → Bool))
    (ignW : Option (List Str → Bool)) (maxDepth : Int)
    (entriesQ entriesW : Option (List FS)) :
    treeSorted (FindMarkdownFilesQuick rootPath ignQ entriesQ).1 ∧
    treeSorted (FindMarkdownFilesWithDepth rootPath ignW maxDepth entriesW).1 := by
  constructor
  · cases entriesQ with
    | none =>
        refine ⟨List.Pairwise.nil, ?_⟩
        simp [treeSortedL]
    | some es => exact sortTree_sorted _
  · cases entriesW with
    | none => exact sortTree_sorted _
    | some es => exact sortTree_sorted _

/- No node below the root (whether directory or document) has a name
starting with the hidden-file marker. -/
mutual

def cleanNames : FileNode → Bool
  | .mk _ _ _ cs => cleanNamesL cs

def cleanNamesL : List FileNode → Bool
  | [] => true
  | c :: cs => (!startsDot c.Name && cleanNames c) && cleanNamesL cs

end

/- No directory node below the root has a name starting with the
hidden-file marker (document nodes are unconstrained). -/
mutual

def cleanDirNames : FileNode → Bool
  | .mk _ _ _ cs => cleanDirNamesL cs

def cleanDirNamesL : List FileNode → Bool
  | [] => true
  | c :: cs => ((!c.IsDir || !startsDot c.Name) && cleanDirNames c) && cleanDirNamesL cs

end

theorem cleanNames_eq : ∀ t, cleanNames t = cleanNamesL t.Children := by
  intro t; obtain ⟨n, p, d, cs⟩ := t
  simp [cleanNames, FileNode.Children]

theorem cleanDirNames_eq : ∀ t, cleanDirNames t = cleanDirNamesL t.Children := by
  intro t; obtain ⟨n, p, d, cs⟩ := t
  simp [cleanDirNames, FileNode.Children]

theorem cleanNamesL_iff : ∀ l, cleanNamesL l = true ↔
    ∀ c ∈ l, startsDot c.Name = false ∧ cleanNames c = true := by
  intro l
  induction l with
  | nil => simp [cleanNamesL]
  | cons c cs ih =>
      rw [show cleanNamesL (c :: cs) = ((!startsDot c.Name && cleanNames c) && cleanNamesL cs)
        from by simp [cleanNamesL]]
      simp [ih]

theorem cleanDirNamesL_iff : ∀ l, cleanDirNamesL l = true ↔
    ∀ c ∈ l, (c.IsDir = true → startsDot c.Name = false) ∧ cleanDirNames c = true := by
  intro l
  induction l with
  | nil => simp [cleanDirNamesL]
  | cons c cs ih =>
      rw [show cleanDirNamesL (c :: cs) =
            (((!c.IsDir || !startsDot c.Name) && cleanDirNames c) && cleanDirNamesL cs)
        from by simp [cleanDirNamesL]]
      simp [ih]
      intro _ _
      constructor
      · intro h1 hd
        rcases h1 with h1 | h1
        · rw [hd] at h1; cases h1
        · exact h1
      · intro h1
        cases hd : c.IsDir
        · exact Or.inl rfl
        · exact Or.inr (h1 hd)

/-- The condition `addToTree` needs to preserve hidden-directory
exclusion: every non-final path part (each becomes a directory node) is
unhidden, and the final part too when the inserted entry is a directory. -/
def dirPartsClean : List Str → Bool → Prop
  | [], _ => True
  | [p], isDir => isDir = true → startsDot p = false
  | p :: q :: rest, isDir => startsDot p = false ∧ dirPartsClean (q :: rest) isDir

theorem dirPartsClean_tail (p : Str) (rest : List Str) (b : Bool)
    (h : dirPartsClean (p :: rest) b) : dirPartsClean rest b := by
  cases rest with
  | nil => trivial
  | cons q rest2 => exact h.2

theorem dirPartsClean_head (p : Str) (rest : List Str) (b : Bool)
    (h : dirPartsClean (p :: rest) b) : (b || !rest.isEmpty) = true → startsDot p = false := by
  intro hb
  cases rest with
  | nil =>
      simp at hb
      exact h hb
  | cons q rest2 => exact h.1

theorem dirPartsClean_append : ∀ (l : List Str) (p : Str) (b : Bool),
    (∀ q ∈ l, startsDot q = false) → (b = true → startsDot p = false) →
    dirPartsClean (l ++ [p]) b := by
  intro l
  induction l with
  | nil => intro p b _ hp; exact hp
  | cons q rest ih =>
      intro p b hl hp
      have hq : startsDot q = false := hl q (List.mem_cons_self q rest)
      have hrest := ih p b (fun x hx => hl x (List.mem_cons_of_mem q hx)) hp
      cases hr : rest ++ [p] with
      | nil => exact absurd hr (by simp)
      | cons r rs =>
          show dirPartsClean (q :: rest ++ [p]) b
          rw [List.cons_append, hr]
          exact ⟨hq, hr ▸ hrest⟩

/-- `addTo` preserves clean directory names when the inserted parts are
clean in directory positions. -/
theorem addTo_cleanDir (basePath : List Str) :
    ∀ done parts isDir cs, dirPartsClean parts isDir → cleanDirNamesL cs = true →
      cleanDirNamesL (addTo basePath done parts isDir cs) = true
  | done, [], isDir, cs, _, hcs => by simpa [addTo] using hcs
  | done, p :: rest, isDir, [], hp, _ => by
      rw [show addTo basePath done (p :: rest) isDir [] =
            [.mk p (basePath ++ done ++ [p]) (isDir || !rest.isEmpty)
              (addTo basePath (done ++ [p]) rest isDir [])] from by rw [addTo]]
      have hkids := addTo_cleanDir basePath (done ++ [p]) rest isDir []
        (dirPartsClean_tail p rest isDir hp) rfl
      rw [cleanDirNamesL_iff]
      intro c hc
      rw [List.mem_singleton] at hc
      subst hc
      refine ⟨?_, by simpa [cleanDirNames, FileNode.Children] using hkids⟩
      intro hdir
      exact dirPartsClean_head p rest isDir hp (by simpa [FileNode.IsDir] using hdir)
  | done, p :: rest, isDir, c :: cs, hp, hcs => by
      rw [show cleanDirNamesL (c :: cs) =
            (((!c.IsDir || !startsDot c.Name) && cleanDirNames c) && cleanDirNamesL cs)
        from by simp [cleanDirNamesL]] at hcs
      simp only [Bool.and_eq_true] at hcs
      obtain ⟨⟨hhd, hcc⟩, hcs2⟩ := hcs
      by_cases he : c.Name = p
      · rw [show addTo basePath done (p :: rest) isDir (c :: cs) =
              .mk c.Name c.Path c.IsDir (addTo basePath (done ++ [p]) rest isDir c.Children) :: cs
            from by rw [addTo, if_pos he]]
        rw [show cleanDirNamesL (FileNode.mk c.Name c.Path c.IsDir
              (addTo basePath (done ++ [p]) rest isDir c.Children) :: cs) =
              (((!(FileNode.mk c.Name c.Path c.IsDir
                  (addTo basePath (done ++ [p]) rest isDir c.Children)).IsDir ||
                 !startsDot (FileNode.mk c.Name c.Path c.IsDir
                  (addTo basePath (done ++ [p]) rest isDir c.Children)).Name) &&
                cleanDirNames (FileNode.mk c.Name c.Path c.IsDir
                  (addTo basePath (done ++ [p]) rest isDir c.Children))) && cleanDirNamesL cs)
          from by simp [cleanDirNamesL]]
        simp only [Bool.and_eq_true, FileNode.IsDir, FileNode.Name]
        have hkids := addTo_cleanDir basePath (done ++ [p]) rest isDir c.Children
          (dirPartsClean_tail p rest isDir hp) (by rwa [cleanDirNames_eq] at hcc)
        exact ⟨⟨by simpa [FileNode.IsDir, FileNode.Name] using hhd,
          by simpa [cleanDirNames, FileNode.Children] using hkids⟩, hcs2⟩
      · rw [show addTo basePath done (p :: rest) isDir (c :: cs) =
              c :: addTo basePath done (p :: rest) isDir cs
            from by rw [addTo, if_neg he]]
        rw [show cleanDirNamesL (c :: addTo basePath done (p :: rest) isDir cs) =
              (((!c.IsDir || !startsDot c.Name) && cleanDirNames c) &&
                cleanDirNamesL (addTo basePath done (p :: rest) isDir cs))
          from by simp [cleanDirNamesL]]
        simp only [Bool.and_eq_true]
        exact ⟨⟨hhd, hcc⟩, addTo_cleanDir basePath done (p :: rest) isDir cs hp hcs2⟩
termination_by done parts isDir cs => (parts.length, cs.length)

/-- `addTo` preserves fully clean names when every inserted part is clean. -/
theorem addTo_clean (basePath : List Str) :
    ∀ done parts isDir cs, (∀ p ∈ parts, startsDot p = false) → cleanNamesL cs = true →
      cleanNamesL (addTo basePath done parts isDir cs) = true
  | done, [], isDir, cs, _, hcs => by simpa [addTo] using hcs
  | done, p :: rest, isDir, [], hp, _ => by
      rw [show addTo basePath done (p :: rest) isDir [] =
            [.mk p (basePath ++ done ++ [p]) (isDir || !rest.isEmpty)
              (addTo basePath (done ++ [p]) rest isDir [])] from by rw [addTo]]
      have hkids := addTo_clean basePath (done ++ [p]) rest isDir []
        (fun x hx => hp x (List.mem_cons_of_mem p hx)) rfl
      rw [cleanNamesL_iff]
      intro c hc
      rw [List.mem_singleton] at hc
      subst hc
      exact ⟨by simpa [FileNode.Name] using hp p (List.mem_cons_self p rest),
        by simpa [cleanNames, FileNode.Children] using hkids⟩
  | done, p :: rest, isDir, c :: cs, hp, hcs => by
      rw [show cleanNamesL (c :: cs) =
            ((!startsDot c.Name && cleanNames c) && cleanNamesL cs)
        from by simp [cleanNamesL]] at hcs
      simp only [Bool.and_eq_true] at hcs
      obtain ⟨⟨hhd, hcc⟩, hcs2⟩ := hcs
      by_cases he : c.Name = p
      · rw [show addTo basePath done (p :: rest) isDir (c :: cs) =
              .mk c.Name c.Path c.IsDir (addTo basePath (done ++ [p]) rest isDir c.Children) :: cs
            from by rw [addTo, if_pos he]]
        rw [cleanNamesL_iff]
        intro x hx
        rcases List.mem_cons.mp hx with rfl | hx2
        · have hkids := addTo_clean basePath (done ++ [p]) rest isDir c.Children
            (fun y hy => hp y (List.mem_cons_of_mem p hy)) (by rwa [cleanNames_eq] at hcc)
          exact ⟨by simpa [FileNode.Name] using hhd,
            by simpa [cleanNames, FileNode.Children] using hkids⟩
        · exact (cleanNamesL_iff cs).mp hcs2 x hx2
      · rw [show addTo basePath done (p :: rest) isDir (c :: cs) =
              c :: addTo basePath done (p :: rest) isDir cs
            from by rw [addTo, if_neg he]]
        rw [show cleanNamesL (c :: addTo basePath done (p :: rest) isDir cs) =
              ((!startsDot c.Name && cleanNames c) &&
                cleanNamesL (addTo basePath done (p :: rest) isDir cs))
          from by simp [cleanNamesL]]
        simp only [Bool.and_eq_true]
        exact ⟨⟨hhd, hcc⟩, addTo_clean basePath done (p :: rest) isDir cs hp hcs2⟩
termination_by done parts isDir cs => (parts.length, cs.length)

/-- Strong induction principle for the nested inductive `FS`. -/
theorem fs_strongInd (P : FS → Prop) (hf : ∀ n, P (.file n))
    (hd : ∀ n es, (∀ e ∈ es, P e) → P (.dir n es)) : ∀ e, P e := by
  intro e
  induction e using FS.rec (motive_2 := fun l => ∀ x ∈ l, P x) with
  | file n => exact hf n
  | dir n es ih => exact hd n es ih
  | nil =>
      rename_i x hx
      exact absurd hx (List.not_mem_nil x)
  | cons a l iha ihl =>
      rename_i x hx
      rcases List.mem_cons.mp hx with rfl | h2
      · exact iha
      · exact ihl x h2

theorem sortTree_fields : ∀ t, (sortTree t).Name = t.Name ∧ (sortTree t).IsDir = t.IsDir := by
  intro t; obtain ⟨n, p, d, cs⟩ := t
  constructor <;> simp [sortTree, FileNode.Name, FileNode.IsDir]

/-- `sortTree` preserves full name-cleanness. -/
theorem sortTree_clean_pres : ∀ t, cleanNames t = true → cleanNames (sortTree t) = true := by
  intro t
  induction t using fileNode_strongInd with
  | h n p d cs ih =>
    intro h0
    rw [show sortTree (.mk n p d cs) = .mk n p d (List.insertionSort nodeLE (sortTreeL cs))
      from by simp [sortTree]]
    rw [show cleanNames (FileNode.mk n p d (List.insertionSort nodeLE (sortTreeL cs))) =
          cleanNamesL (List.insertionSort nodeLE (sortTreeL cs)) from by simp [cleanNames]]
    rw [cleanNamesL_iff]
    intro c' hc'
    obtain ⟨c, hc, rfl⟩ := (mem_sortTreeL cs c').mp
      ((List.perm_insertionSort nodeLE (sortTreeL cs)).mem_iff.mp hc')
    have h1 := (cleanNamesL_iff cs).mp (by simpa [cleanNames] using h0) c hc
    exact ⟨(sortTree_fields c).1 ▸ h1.1, ih c hc h1.2⟩

/-- `sortTree` preserves directory-name-cleanness. -/
theorem sortTree_cleanDir_pres : ∀ t, cleanDirNames t = true → cleanDirNames (sortTree t) = true := by
  intro t
  induction t using fileNode_strongInd with
  | h n p d cs ih =>
    intro h0
    rw [show sortTree (.mk n p d cs) = .mk n p d (List.insertionSort nodeLE (sortTreeL cs))
      from by simp [sortTree]]
    rw [show cleanDirNames (FileNode.mk n p d (List.insertionSort nodeLE (sortTreeL cs))) =
          cleanDirNamesL (List.insertionSort nodeLE (sortTreeL cs)) from by simp [cleanDirNames]]
    rw [cleanDirNamesL_iff]
    intro c' hc'
    obtain ⟨c, hc, rfl⟩ := (mem_sortTreeL cs c').mp
      ((List.perm_insertionSort nodeLE (sortTreeL cs)).mem_iff.mp hc')
    have h1 := (cleanDirNamesL_iff cs).mp (by simpa [cleanDirNames] using h0) c hc
    refine ⟨?_, ih c hc h1.2⟩
    intro hd
    rw [(sortTree_fields c).1]
    exact h1.1 ((sortTree_fields c).2 ▸ hd)

/-- Every step of the walk over a directory's entries keeps directory
names clean, given the per-entry property. -/
theorem walkList_cleanDir (rootPath : List Str) (ign : Option (List Str → Bool)) (maxDepth : Int) :
    ∀ es acc rel,
      (∀ e ∈ es, ∀ acc' pr, (∀ q ∈ pr, startsDot q = false) → cleanDirNames acc' = true →
        cleanDirNames (walkOne rootPath ign maxDepth acc' pr e) = true) →
      (∀ q ∈ rel, startsDot q = false) → cleanDirNames acc = true →
      cleanDirNames (walkList rootPath ign maxDepth acc rel es) = true := by
  intro es
  induction es with
  | nil => intro acc rel _ _ hacc; simpa [walkList] using hacc
  | cons e es2 ih =>
      intro acc rel hone hrel hacc
      rw [show walkList rootPath ign maxDepth acc rel (e :: es2) =
            walkList rootPath ign maxDepth (walkOne rootPath ign maxDepth acc rel e) rel es2
        from by rw [walkList]]
      exact ih _ rel (fun e' he' => hone e' (List.mem_cons_of_mem e he'))
        hrel (hone e (List.mem_cons_self e es2) acc rel hrel hacc)

/-- The walk callback keeps directory names clean: hidden directories are
pruned before insertion, and every inserted relative path has unhidden
directory segments. -/
theorem walkOne_cleanDir (rootPath : List Str) (ign : Option (List Str → Bool)) (maxDepth : Int) :
    ∀ e : FS, ∀ acc parentRel,
      (∀ q ∈ parentRel, startsDot q = false) → cleanDirNames acc = true →
      cleanDirNames (walkOne rootPath ign maxDepth acc parentRel e) = true := by
  intro e
  induction e using fs_strongInd with
  | hf n =>
      intro acc parentRel hrel hacc
      simp only [walkOne]
      split_ifs with h1 h2 h3 h4
      · exact hacc
      · exact hacc
      · exact hacc
      · exact hacc
      · rw [show cleanDirNames (addToTree rootPath acc (parentRel ++ [(FS.file n).name])
              (FS.file n).isDir) =
              cleanDirNamesL (addTo rootPath [] (parentRel ++ [(FS.file n).name])
                (FS.file n).isDir acc.Children) from by simp [addToTree, cleanDirNames]]
        refine addTo_cleanDir rootPath [] _ _ acc.Children ?_ (by rwa [cleanDirNames_eq] at hacc)
        exact dirPartsClean_append parentRel _ _ hrel (by simp [FS.isDir])
  | hd n es ihes =>
      intro acc parentRel hrel hacc
      simp only [walkOne]
      split_ifs with h1 h2 h3 h4
      · exact hacc
      · exact hacc
      · exact hacc
      · exact hacc
      · have hname : startsDot (FS.dir n es).name = false := by
          revert h2
          simp [FS.isDir, FS.name]
        have hrel2 : ∀ q ∈ parentRel ++ [(FS.dir n es).name], startsDot q = false := by
          intro q hq
          rcases List.mem_append.mp hq with hq | hq
          · exact hrel q hq
          · rw [List.mem_singleton] at hq; subst hq; exact hname
        have hacc1 : cleanDirNames (addToTree rootPath acc
            (parentRel ++ [(FS.dir n es).name]) (FS.dir n es).isDir) = true := by
          rw [show cleanDirNames (addToTree rootPath acc (parentRel ++ [(FS.dir n es).name])
                (FS.dir n es).isDir) =
                cleanDirNamesL (addTo rootPath [] (parentRel ++ [(FS.dir n es).name])
                  (FS.dir n es).isDir acc.Children) from by simp [addToTree, cleanDirNames]]
          refine addTo_cleanDir rootPath [] _ _ acc.Children ?_ (by rwa [cleanDirNames_eq] at hacc)
          exact dirPartsClean_append parentRel _ _ hrel (fun _ => hname)
        exact walkList_cleanDir rootPath ign maxDepth es _ _
          (fun e' he' => ihes e' he') hrel2 hacc1

theorem quickStep_clean (rootPath : List Str) (ign : Option (Str → Bool)) (acc : FileNode)
    (e : FS) (h : cleanNames acc = true) : cleanNames (quickStep rootPath ign acc e) = true := by
  simp only [quickStep]
  split_ifs with h1 h2 h3 h4
  · exact h
  · exact h
  · rw [show cleanNames (addToTree rootPath acc [e.name] true) =
          cleanNamesL (addTo rootPath [] [e.name] true acc.Children)
      from by simp [addToTree, cleanNames]]
    refine addTo_clean rootPath [] [e.name] true acc.Children ?_ (by rwa [cleanNames_eq] at h)
    intro p hp
    rw [List.mem_singleton] at hp
    subst hp
    revert h1
    cases startsDot e.name <;> simp
  · rw [show cleanNames (addToTree rootPath acc [e.name] false) =
          cleanNamesL (addTo rootPath [] [e.name] false acc.Children)
      from by simp [addToTree, cleanNames]]
    refine addTo_clean rootPath [] [e.name] false acc.Children ?_ (by rwa [cleanNames_eq] at h)
    intro p hp
    rw [List.mem_singleton] at hp
    subst hp
    revert h1
    cases startsDot e.name <;> simp
  · exact h

theorem foldl_quickStep_clean (rootPath : List Str) (ign : Option (Str → Bool)) :
    ∀ (es : List FS) (acc : FileNode), cleanNames acc = true →
      cleanNames (es.foldl (quickStep rootPath ign) acc) = true := by
  intro es
  induction es with
  | nil => intro acc h; simpa using h
  | cons e es2 ih => intro acc h; exact ih _ (quickStep_clean rootPath ign acc e h)

/-- C1 counterexample: the depth-bounded scan of a root containing the
hidden markdown file `.a.md` returns a tree containing a node whose name
starts with `.` — the walk only prunes hidden directories, not hidden
files, so the claim's universal exclusion fails for the depth scan. -/
theorem hidden_md_included_cex :
    cleanNames (FindMarkdownFilesWithDepth ["r".data] none (-1)
      (some [FS.file ".a.md".data])).1 = false := by
  simp [FindMarkdownFilesWithDepth, walkList, walkOne, addToTree, addTo, sortTree, sortTreeL,
    List.insertionSort, List.orderedInsert, hasSuffixMd, lowerStr, startsDot, FS.name, FS.isDir,
    FileNode.Children, FileNode.Name, FileNode.Path, FileNode.IsDir, baseName,
    List.isSuffixOf, List.isPrefixOf, cleanNames, cleanNamesL]

/-- C1 amended: the quick scan excludes every entry whose name begins with
the hidden marker (files and directories alike); the depth-bounded scan
excludes every hidden directory (and, by pruning, that directory's whole
subtree), but hidden markdown files are inserted. -/
theorem scans_hidden_exclusion (rootPath : List Str) (ignQ : Option (Str → Bool))
    (ignW : Option (List Str → Bool)) (maxDepth : Int) (entriesQ entriesW : Option (List FS)) :
    cleanNames (FindMarkdownFilesQuick rootPath ignQ entriesQ).1 = true ∧
    cleanDirNames (FindMarkdownFilesWithDepth rootPath ignW maxDepth entriesW).1 = true := by
  constructor
  · cases entriesQ with
    | none => simp [FindMarkdownFilesQuick, cleanNames, cleanNamesL]
    | some es =>
        exact sortTree_clean_pres _ (foldl_quickStep_clean rootPath ignQ es
          (.mk (baseName rootPath) rootPath true []) (by simp [cleanNames, cleanNamesL]))
  · cases entriesW with
    | none => exact sortTree_cleanDir_pres _ (by simp [cleanDirNames, cleanDirNamesL])
    | some es =>
        refine sortTree_cleanDir_pres _ ?_
        exact walkList_cleanDir rootPath ignW maxDepth es _ []
          (fun e _ => walkOne_cleanDir rootPath ignW maxDepth e)
          (by simp) (by simp [cleanDirNames, cleanDirNamesL])

/-- The annotated flatten of a child list projects onto the display lines. -/
theorem annKids_map_line : ∀ (cs : List FileNode) (pre0 : Str),
    (∀ c ∈ cs, ∀ pr l, (flattenAnn c pr l).map (fun e => e.2.1) = FlattenTree c pr l) →
    (annKids cs pre0).map (fun e => e.2.1) = flattenKids cs pre0 := by
  intro cs
  induction cs with
  | nil => intro pre0 _; simp [annKids, flattenKids]
  | cons c rest ih =>
      intro pre0 hIH
      cases rest with
      | nil =>
          rw [show annKids [c] pre0 = flattenAnn c pre0 true from by simp [annKids],
              show flattenKids [c] pre0 = FlattenTree c pre0 true from by simp [flattenKids]]
          exact hIH c (by simp) pre0 true
      | cons c2 rest2 =>
          rw [show annKids (c :: c2 :: rest2) pre0 =
                flattenAnn c pre0 false ++ annKids (c2 :: rest2) pre0 from by simp [annKids],
              show flattenKids (c :: c2 :: rest2) pre0 =
                FlattenTree c pre0 false ++ flattenKids (c2 :: rest2) pre0 from by simp [flattenKids]]
          rw [List.map_append, hIH c (by simp) pre0 false,
            ih pre0 (fun c' hc' => hIH c' (by simp [hc']))]

/-- The annotated flatten of a whole tree projects onto `FlattenTree`. -/
theorem flattenAnn_map_line : ∀ t pre isLast,
    (flattenAnn t pre isLast).map (fun e => e.2.1) = FlattenTree t pre isLast := by
  intro t
  induction t using fileNode_strongInd with
  | h n p d cs ih =>
    intro pre isLast
    rw [show flattenAnn (.mk n p d cs) pre isLast =
          (if pre ≠ [] then [(d, lineFor pre isLast d n, n, p)] else []) ++
            annKids cs (childPre pre isLast ++ "    ".data) from by simp [flattenAnn],
        show FlattenTree (.mk n p d cs) pre isLast =
          (if pre ≠ [] then [lineFor pre isLast d n] else []) ++
            flattenKids cs (childPre pre isLast ++ "    ".data) from by simp [FlattenTree]]
    rw [List.map_append, annKids_map_line cs _ (fun c hc pr l => ih c hc pr l)]
    congr 1
    split_ifs <;> simp

/-- The document-tagged entries of an annotated child-list flatten project
onto the collected file paths, in order. -/
theorem annKids_docs : ∀ (cs : List FileNode) (pre0 : Str), pre0 ≠ [] →
    (∀ c ∈ cs, ∀ pr l, (pr = [] → c.IsDir = true) →
      ((flattenAnn c pr l).filter (fun e => !e.1)).map (fun e => e.2.2.2) = CollectFiles c) →
    ((annKids cs pre0).filter (fun e => !e.1)).map (fun e => e.2.2.2) = collectKids cs := by
  intro cs
  induction cs with
  | nil => intro pre0 _ _; simp [annKids, collectKids]
  | cons c rest ih =>
      intro pre0 hne hIH
      cases rest with
      | nil =>
          rw [show annKids [c] pre0 = flattenAnn c pre0 true from by simp [annKids],
              show collectKids [c] = CollectFiles c ++ collectKids [] from by simp [collectKids],
              show collectKids ([] : List FileNode) = [] from by simp [collectKids]]
          rw [List.append_nil]
          exact hIH c (by simp) pre0 true (fun hp => absurd hp hne)
      | cons c2 rest2 =>
          rw [show annKids (c :: c2 :: rest2) pre0 =
                flattenAnn c pre0 false ++ annKids (c2 :: rest2) pre0 from by simp [annKids],
              show collectKids (c :: c2 :: rest2) =
                CollectFiles c ++ collectKids (c2 :: rest2) from by simp [collectKids]]
          rw [List.filter_append, List.map_append,
            hIH c (by simp) pre0 false (fun hp => absurd hp hne),
            ih pre0 hne (fun c' hc' => hIH c' (by simp [hc']))]

/-- The document-tagged entries of an annotated tree flatten project onto
`CollectFiles`, in order (the root produces no entry, so its own flag must
be `directory` for the correspondence to include it correctly). -/
theorem flattenAnn_docs : ∀ t pre isLast, (pre = [] → t.IsDir = true) →
    ((flattenAnn t pre isLast).filter (fun e => !e.1)).map (fun e => e.2.2.2) = CollectFiles t := by
  intro t
  induction t using fileNode_strongInd with
  | h n p d cs ih =>
    intro pre isLast hpre
    rw [show flattenAnn (.mk n p d cs) pre isLast =
          (if pre ≠ [] then [(d, lineFor pre isLast d n, n, p)] else []) ++
            annKids cs (childPre pre isLast ++ "    ".data) from by simp [flattenAnn],
        show CollectFiles (.mk n p d cs) = (if d then [] else [p]) ++ collectKids cs
          from by simp [CollectFiles]]
    rw [List.filter_append, List.map_append]
    have hkids := annKids_docs cs (childPre pre isLast ++ "    ".data)
      (by simp) (fun c hc pr l hp => ih c hc pr l hp)
    rw [hkids]
    congr 1
    by_cases hp : pre = []
    · have hd : d = true := by simpa [FileNode.IsDir] using hpre hp
      simp [hp, hd]
    · cases hd : d
      · simp [hp, hd]
      · simp [hp, hd]

/-- Every document-tagged entry's display line is some glyph prefix
followed by the document marker `[-] ` and the node's name. -/
theorem annKids_marker : ∀ (cs : List FileNode) (pre0 : Str) e,
    (∀ c ∈ cs, ∀ pr l e', e' ∈ flattenAnn c pr l → e'.1 = false →
      ∃ g, e'.2.1 = g ++ "[-] ".data ++ e'.2.2.1) →
    e ∈ annKids cs pre0 → e.1 = false →
    ∃ g, e.2.1 = g ++ "[-] ".data ++ e.2.2.1 := by
  intro cs
  induction cs with
  | nil => intro pre0 e _ he; simp [annKids] at he
  | cons c rest ih =>
      intro pre0 e hIH he hf
      cases rest with
      | nil =>
          exact hIH c (by simp) pre0 true e (by simpa [annKids] using he) hf
      | cons c2 rest2 =>
          rw [show annKids (c :: c2 :: rest2) pre0 =
                flattenAnn c pre0 false ++ annKids (c2 :: rest2) pre0 from by simp [annKids]] at he
          rcases List.mem_append.mp he with he1 | he2
          · exact hIH c (by simp) pre0 false e he1 hf
          · exact ih pre0 e (fun c' hc' => hIH c' (by simp [hc'])) he2 hf

/-- Marker decomposition for every document-tagged entry of a tree's
annotated flatten. -/
theorem flattenAnn_marker : ∀ t pre isLast e, e ∈ flattenAnn t pre isLast → e.1 = false →
    ∃ g, e.2.1 = g ++ "[-] ".data ++ e.2.2.1 := by
  intro t
  induction t using fileNode_strongInd with
  | h n p d cs ih =>
    intro pre isLast e he hf
    rw [show flattenAnn (.mk n p d cs) pre isLast =
          (if pre ≠ [] then [(d, lineFor pre isLast d n, n, p)] else []) ++
            annKids cs (childPre pre isLast ++ "    ".data) from by simp [flattenAnn]] at he
    rcases List.mem_append.mp he with he1 | he2
    · by_cases hp : pre = []
      · simp [hp] at he1
      · rw [if_pos hp] at he1
        rw [List.mem_singleton] at he1
        subst he1
        have hd : d = false := hf
        refine ⟨(if isLast then cut4 pre ++ "└── ".data else cut4 pre ++ "├── ".data), ?_⟩
        simp [lineFor, hd, List.append_assoc]
    · exact annKids_marker cs _ e (fun c hc pr l e' he' hf' => ih c hc pr l e' he' hf') he2 hf

/-- C6: for every tree (whose root is a directory, as the data model
requires), the annotated flatten simultaneously projects onto the display
lines and — restricted to its document-tagged entries — onto the file
index: the document at index `i` of `CollectFiles` is exactly the node of
the `i`-th document-marked display line, the index length equals the
number of document-marked lines, and every document-marked line carries the
marker `[-] ` followed by that node's name. -/
theorem flatten_collect_consistent (t : FileNode) (h : t.IsDir = true) :
    (flattenAnn t [] false).map (fun e => e.2.1) = FlattenTree t [] false ∧
    ((flattenAnn t [] false).filter (fun e => !e.1)).map (fun e => e.2.2.2) = CollectFiles t ∧
    ((flattenAnn t [] false).filter (fun e => !e.1)).length = (CollectFiles t).length ∧
    (∀ e ∈ flattenAnn t [] false, e.1 = false → ∃ g, e.2.1 = g ++ "[-] ".data ++ e.2.2.1) := by
  refine ⟨flattenAnn_map_line t [] false, flattenAnn_docs t [] false (fun _ => h), ?_,
    fun e he hf => flattenAnn_marker t [] false e he hf⟩
  rw [← flattenAnn_docs t [] false (fun _ => h), List.length_map]

/-- Witness for C6 on a one-document tree. -/
theorem flatten_collect_consistent_witness :
    (FileNode.mk "r".data ["r".data] true
        [FileNode.mk "a.md".data ["r".data, "a.md".data] false []]).IsDir = true ∧
    ((flattenAnn (FileNode.mk "r".data ["r".data] true
        [FileNode.mk "a.md".data ["r".data, "a.md".data] false []]) [] false).filter
      (fun e => !e.1)).map (fun e => e.2.2.2) =
      CollectFiles (FileNode.mk "r".data ["r".data] true
        [FileNode.mk "a.md".data ["r".data, "a.md".data] false []]) :=
  ⟨rfl, (flatten_collect_consistent (FileNode.mk "r".data ["r".data] true
        [FileNode.mk "a.md".data ["r".data, "a.md".data] false []]) rfl).2.1⟩

theorem goMax_nonneg (x : Int) : 0 ≤ goMax 0 x := by
  simp only [goMax]
  split_ifs <;> omega

theorem le_goMax_of_le {x b : Int} (y : Int) (h : x ≤ b) : x ≤ goMax y b := by
  simp only [goMax]
  split_ifs <;> omega

/-- The content-viewport invariant of the spec: the offset is within
`[0, max(0, len(renderedLines) - visibleHeight)]`, where the visible
height is `height - 2` as the source computes it. -/
def cvInv (m : DualPaneModel) : Prop :=
  0 ≤ m.contentViewport ∧
  m.contentViewport ≤ goMax 0 ((m.renderedLines.length : Int) - (m.height - 2))

/-- The messages whose handlers clamp (or leave untouched) the content
viewport: everything except the raw/rendered toggle, the split-ratio
keys, resize, and scan-completion (each of which replaces the rendered
lines without clamping). -/
def clampSafe : Msg → Prop
  | .key ky => ky ≠ .r ∧ ky ≠ .lt ∧ ky ≠ .gt
  | .wheel _ _ => True
  | .performExpansion => True
  | .initialLoad => True
  | .windowSize _ _ => False
  | .loadComplete _ => False

/-- `loadFile` keeps the invariant when every indexed file reads
successfully (a successful load resets the viewport to 0). -/
theorem loadFile_cvInv (env : Env) (m : DualPaneModel) (i : Int)
    (hres : ∀ p ∈ m.allFiles, ∃ c, env.readFile p = .ok c)
    (hinv : cvInv m) : cvInv (loadFile env m i) := by
  unfold loadFile
  split_ifs with h
  · exact hinv
  · push_neg at h
    have hlt : i.toNat < m.allFiles.length := by omega
    have hmem : m.allFiles.getD i.toNat [] ∈ m.allFiles := by
      rw [List.getD_eq_getElem _ _ hlt]
      exact List.getElem_mem hlt
    obtain ⟨c, hc⟩ := hres _ hmem
    rw [hc]
    exact ⟨le_refl 0, goMax_nonneg _⟩

/-- `adjustTreeViewport` never touches the content viewport. -/
theorem adjust_cvInv (m : DualPaneModel) (hinv : cvInv m) : cvInv (adjustTreeViewport m) := by
  simp only [adjustTreeViewport]
  split_ifs <;> exact hinv

/-- C2 amended: with a nonnegative visible height, every scroll, page,
extreme, focus, wheel, expansion and (successfully loading) selection
operation keeps the content viewport within
`[0, max(0, len(renderedLines) - (height - 2))]`.  The raw/rendered
toggle, the split-ratio keys, resize, and scan completion are excluded:
they replace the rendered lines without clamping the offset. -/
theorem cv_clamped (env : Env) (m : DualPaneModel) (msg : Msg)
    (hh : 2 ≤ m.height)
    (hres : ∀ p ∈ m.allFiles, ∃ c, env.readFile p = .ok c)
    (hsafe : clampSafe msg) (hinv : cvInv m) : cvInv (update env m msg) := by
  obtain ⟨h0, h1⟩ := hinv
  cases msg with
  | loadComplete res => exact hsafe.elim
  | windowSize w h => exact hsafe.elim
  | initialLoad =>
      simp only [update]
      split_ifs <;> exact ⟨h0, h1⟩
  | performExpansion =>
      simp only [update]
      split_ifs <;> exact ⟨h0, h1⟩
  | wheel up x =>
      simp only [update]
      split_ifs with c1 c2 c3 c4 c5 <;>
        first
        | exact ⟨h0, h1⟩
        | (obtain ⟨-, hc⟩ := c4
           exact ⟨by dsimp only; omega, by dsimp only; omega⟩)
        | (obtain ⟨-, hc⟩ := c5
           exact ⟨by dsimp only; omega,
             by dsimp only; exact le_goMax_of_le 0 (by omega)⟩)
  | key ky =>
      cases ky with
      | q => exact ⟨h0, h1⟩
      | tab => exact ⟨h0, h1⟩
      | e => exact ⟨h0, h1⟩
      | h =>
          simp only [update]
          split_ifs <;> exact ⟨h0, h1⟩
      | l =>
          simp only [update]
          split_ifs <;> exact ⟨h0, h1⟩
      | enter =>
          simp only [update]
          split_ifs
          · exact ⟨by dsimp only; omega, by dsimp only; exact goMax_nonneg _⟩
          · exact ⟨h0, h1⟩
      | j =>
          simp only [update]
          split_ifs with hp hsel hscroll
          · exact adjust_cvInv _ (loadFile_cvInv env _ _ hres ⟨h0, h1⟩)
          · exact ⟨h0, h1⟩
          · exact ⟨by dsimp only; omega,
              by dsimp only; exact le_goMax_of_le 0 (by omega)⟩
          · exact ⟨h0, h1⟩
      | k =>
          simp only [update]
          split_ifs with hp hsel hscroll
          · exact adjust_cvInv _ (loadFile_cvInv env _ _ hres ⟨h0, h1⟩)
          · exact ⟨h0, h1⟩
          · exact ⟨by dsimp only; omega, by dsimp only; omega⟩
          · exact ⟨h0, h1⟩
      | g =>
          simp only [update]
          split_ifs with hp hlen
          · exact ⟨by dsimp only; omega, by dsimp only; exact goMax_nonneg _⟩
          · exact loadFile_cvInv env _ _ hres ⟨h0, h1⟩
          · exact ⟨h0, h1⟩
      | G =>
          simp only [update]
          split_ifs with hp
          · exact ⟨by dsimp only; exact goMax_nonneg _, by dsimp only; exact le_refl _⟩
          · exact adjust_cvInv _ (loadFile_cvInv env _ _ hres ⟨h0, h1⟩)
      | ctrlD =>
          simp only [update]
          have htd : 0 ≤ (m.height - 2).tdiv 2 := by
            rw [Int.tdiv_eq_ediv (by omega) (by omega)]
            omega
          split_ifs with hp hover
          · exact ⟨by dsimp only; exact goMax_nonneg _, by dsimp only; exact le_refl _⟩
          · exact ⟨by dsimp only; omega,
              by dsimp only; exact le_goMax_of_le 0 (by omega)⟩
          · exact ⟨h0, h1⟩
      | ctrlU =>
          simp only [update]
          have htd : 0 ≤ (m.height - 2).tdiv 2 := by
            rw [Int.tdiv_eq_ediv (by omega) (by omega)]
            omega
          split_ifs with hp hneg
          · exact ⟨by dsimp only; omega, by dsimp only; exact goMax_nonneg _⟩
          · exact ⟨by dsimp only; omega, by dsimp only; omega⟩
          · exact ⟨h0, h1⟩
      | r => exact absurd rfl hsafe.1
      | lt => exact absurd rfl hsafe.2.1
      | gt => exact absurd rfl hsafe.2.2

/-- A state whose long rendered content is scrolled to the bottom while
the underlying raw content is a single line. -/
def modelCv2 : DualPaneModel :=
  { modelBase with
      height := 3
      renderedLines := ["a".data, "b".data]
      contentViewport := 1
      currentContent := "x".data }

/-- C2 counterexample: from a state satisfying the viewport invariant
(with nonnegative visible height), the raw/rendered toggle — a mutating
operation in the claim's list — shrinks the rendered lines without
clamping, leaving the offset above `max(0, len - visibleHeight)`. -/
theorem raw_toggle_viewport_unclamped_cex :
    cvInv modelCv2 ∧ 2 ≤ modelCv2.height ∧
    ¬ cvInv (update envEmpty modelCv2 (.key .r)) := by
  refine ⟨⟨by norm_num [modelCv2, modelBase], ?_⟩,
    by norm_num [modelCv2, modelBase], ?_⟩
  · norm_num [cvInv, modelCv2, modelBase, goMax]
  · intro hbad
    have h2 := hbad.2
    have hcv : (update envEmpty modelCv2 (.key .r)).contentViewport = 1 := by
      simp [update, refreshContent, modelCv2, modelBase]
    have hrl : (update envEmpty modelCv2 (.key .r)).renderedLines = ["x".data] := by
      simp [update, refreshContent, modelCv2, modelBase, splitNl]
    have hht : (update envEmpty modelCv2 (.key .r)).height = 3 := by
      simp [update, refreshContent, modelCv2, modelBase]
    rw [hcv, hrl, hht] at h2
    norm_num [goMax] at h2

/-- The scrolled state with the content pane focused. -/
def modelCv2c : DualPaneModel := { modelCv2 with focusedPane := 1 }

/-- Witness for C2 amended: a line-down scroll in the content pane from a
concrete in-bounds state stays in bounds. -/
theorem cv_clamped_witness :
    (2 : Int) ≤ modelCv2c.height ∧ clampSafe (.key .j) ∧ cvInv modelCv2c ∧
    cvInv (update envEmpty modelCv2c (.key .j)) := by
  have hh : (2 : Int) ≤ modelCv2c.height := by norm_num [modelCv2c, modelCv2, modelBase]
  have hinv : cvInv modelCv2c := by
    constructor
    · norm_num [modelCv2c, modelCv2, modelBase]
    · norm_num [cvInv, modelCv2c, modelCv2, modelBase, goMax]
  have hres : ∀ p ∈ modelCv2c.allFiles, ∃ c, envEmpty.readFile p = .ok c := by
    intro p hp
    simp [modelCv2c, modelCv2, modelBase] at hp
  exact ⟨hh, ⟨by decide, by decide, by decide⟩, hinv,
    cv_clamped envEmpty modelCv2c (.key .j) hh hres ⟨by decide, by decide, by decide⟩ hinv⟩

/-- C4 amended: every split-ratio key keeps the tree-pane fraction within
[0.2, 0.5] (given it was within bounds), and then runs
`updateRendererWidth`; that re-renders the current document only when no
renderer for the new effective wrap width is cached and construction
succeeds — on a cache hit the cached renderer is installed and the
rendered lines are left as they were. -/
theorem split_ratio_change (env : Env) (m : DualPaneModel)
    (hlo : (2 : ℚ)/10 ≤ m.splitRatio) (hhi : m.splitRatio ≤ 5/10) (ky : Key) (s' : ℚ)
    (hk : (ky = .lt ∧ s' = maxFloat (2/10) (m.splitRatio - 5/100)) ∨
          (ky = .gt ∧ s' = minFloat (5/10) (m.splitRatio + 5/100))) :
    ((2 : ℚ)/10 ≤ s' ∧ s' ≤ 5/10) ∧
    update env m (.key ky) = updateRendererWidth env { m with splitRatio := s' } ∧
    (∀ r, lookupCache m.cache (wrapWidth { m with splitRatio := s' }) = some r →
        updateRendererWidth env { m with splitRatio := s' } =
          { m with splitRatio := s', renderer := some r }) ∧
    (∀ r, lookupCache m.cache (wrapWidth { m with splitRatio := s' }) = none →
        env.newRenderer (wrapWidth { m with splitRatio := s' }) = some r →
        updateRendererWidth env { m with splitRatio := s' } =
          refreshContent env
            { m with
                splitRatio := s'
                renderer := some r
                cache := m.cache ++ [(wrapWidth { m with splitRatio := s' }, r)] }) := by
  refine ⟨?_, ?_, ?_, ?_⟩
  · rcases hk with ⟨-, rfl⟩ | ⟨-, rfl⟩
    · unfold maxFloat
      split_ifs with h
      · constructor <;> norm_num
      · constructor
        · linarith
        · linarith
    · unfold minFloat
      split_ifs with h
      · constructor
        · linarith
        · norm_num
      · constructor
        · linarith
        · linarith
  · rcases hk with ⟨rfl, rfl⟩ | ⟨rfl, rfl⟩ <;> rfl
  · intro r hr
    simp only [updateRendererWidth]
    rw [hr]
  · intro r hn hr
    simp only [updateRendererWidth]
    rw [hn, hr]

/-- A renderer that rewrites any content to the single line `R`. -/
def rendR : Renderer := fun _ => some "R".data

/-- A state of width 0 (so the effective wrap width clamps to the minimum
40) whose cache already holds a renderer for width 40, while the rendered
lines on screen are stale. -/
def modelC4 : DualPaneModel :=
  { modelBase with
      width := 0
      renderedLines := ["old".data]
      currentContent := "x".data
      cache := [(40, rendR)] }

/-- C4 counterexample: after the split-ratio increase the new effective
wrap width (40) is already in the renderer cache, and `updateRendererWidth`
returns without re-rendering — the rendered lines stay `["old"]`, although
re-rendering the current document through that cached renderer (which the
claim demands) would produce `["R"]`. -/
theorem split_ratio_cache_hit_no_rerender_cex :
    (update envEmpty modelC4 (.key .gt)).renderedLines = ["old".data] ∧
    (refreshContent envEmpty
      { modelC4 with
          splitRatio := minFloat (5/10) (modelC4.splitRatio + 5/100)
          renderer := some rendR }).renderedLines = ["R".data] ∧
    (["old".data] : List Str) ≠ ["R".data] := by
  refine ⟨?_, ?_, by decide⟩
  · have hw : wrapWidth { modelC4 with
        splitRatio := minFloat (5/10) (modelC4.splitRatio + 5/100) } = 40 := by
      norm_num [wrapWidth, goInt, minFloat, modelC4, modelBase]
    have h2 : update envEmpty modelC4 (.key .gt) =
        updateRendererWidth envEmpty { modelC4 with
          splitRatio := minFloat (5/10) (modelC4.splitRatio + 5/100) } := rfl
    rw [h2]
    simp only [updateRendererWidth, hw]
    rw [show lookupCache modelC4.cache 40 = some rendR from by
      simp [modelC4, modelBase, lookupCache]]
    simp [modelC4, modelBase]
  · simp [refreshContent, ensureRenderer, rendR, modelC4, modelBase, splitNl]

/-- Witness for C4 amended at the concrete state: the ratio stays within
bounds after the increase key. -/
theorem split_ratio_change_witness :
    ((2 : ℚ)/10 ≤ modelC4.splitRatio ∧ modelC4.splitRatio ≤ 5/10) ∧
    ((2 : ℚ)/10 ≤ minFloat (5/10) (modelC4.splitRatio + 5/100) ∧
      minFloat (5/10) (modelC4.splitRatio + 5/100) ≤ 5/10) := by
  have h := split_ratio_change envEmpty modelC4
    (by norm_num [modelC4, modelBase]) (by norm_num [modelC4, modelBase]) .gt
    (minFloat (5/10) (modelC4.splitRatio + 5/100)) (Or.inr ⟨rfl, rfl⟩)
  exact ⟨⟨by norm_num [modelC4, modelBase], by norm_num [modelC4, modelBase]⟩, h.1⟩
